import Mathlib

/-!
Verification development for the FiveStar seasonal web-proofing app
(`src/fsr_seasonal_app.py`).

The Python source is shallowly embedded below.  Conventions used by the
embedding:

* pandas dataframe cells that may be `NaN` are modelled as `Option` values
  (`none` = `NaN`); the `Metro` column is modelled as a plain `String`
  because line 115 of the source (`df["Metro"].fillna("").astype(str)`)
  turns every `NaN` into the empty string before any of the logic below
  runs, so a `RefRecord` is a row of the dataframe after that line;
* the `FSR Position` column may hold a missing value, a number, or a
  non-numeric string (a malformed cell), modelled by `PosVal`;
* Python strings are Lean `String`s, and the regular expressions of
  `normalize` are modelled character by character over the ASCII classes
  used by `re` (`\w` = letters, digits, underscore; `\s` = whitespace);
* functions that Python guards with `try ... except` return `Option`,
  `none` standing for the exception branch.
-/

namespace FsrSeasonal

/-! ### The `normalize` function (source lines 80-87) -/

/-- Step `text.lower()` (line 83), applied character by character. -/
def lowerL (l : List Char) : List Char := l.map Char.toLower

/-- Step `text.replace("&", "and")` (line 84): every occurrence of the
single character `&` is replaced by the three characters `and`. -/
def ampL : List Char → List Char
  | [] => []
  | c :: rest => if c == '&' then 'a' :: 'n' :: 'd' :: ampL rest else c :: ampL rest

/-- Character class `\w` of the regex on line 85 (ASCII): letters, digits
and the underscore. -/
def isWordChar (c : Char) : Bool := c.isAlphanum || c == '_'

/-- Character class `\s` of the regexes on lines 85-86 (ASCII): space, tab,
newline, carriage return, vertical tab and form feed. -/
def isSpaceChar (c : Char) : Bool :=
  c == ' ' || c == '\t' || c == '\n' || c == '\r' || c == '\x0b' || c == '\x0c'

/-- Step `re.sub(r"[^\w\s]", "", text)` (line 85): delete every character
that is neither a word character nor whitespace. -/
def filterL (l : List Char) : List Char := l.filter (fun c => isWordChar c || isSpaceChar c)

/-- Worker for `re.sub(r"\s+", " ", text)` (line 86).  The boolean records
whether the previous character belonged to a whitespace run that has
already emitted its single replacement space. -/
def collapseAux : Bool → List Char → List Char
  | _, [] => []
  | prev, c :: rest =>
    if isSpaceChar c then
      if prev then collapseAux true rest else ' ' :: collapseAux true rest
    else c :: collapseAux false rest

/-- Step `re.sub(r"\s+", " ", text)` (line 86): every maximal run of
whitespace characters becomes one space. -/
def collapseL (l : List Char) : List Char := collapseAux false l

/-- Step `text.strip()` (line 87): remove leading and trailing whitespace. -/
def trimL (l : List Char) : List Char :=
  ((l.dropWhile isSpaceChar).reverse.dropWhile isSpaceChar).reverse

/-- The whole pipeline of `normalize` on an actual string, lines 83-87 in
source order. -/
def normalizeL (l : List Char) : List Char :=
  trimL (collapseL (filterL (ampL (lowerL l))))

/-- Python `normalize` restricted to string input (lines 83-87). -/
def normalize (s : String) : String := String.mk (normalizeL s.toList)

/-- A Python value passed to `normalize`: either a string or any
non-string value (for example the `NaN` of a missing dataframe cell),
which the `isinstance` guard on lines 81-82 maps to `""`. -/
inductive PyStr where
  | str (s : String)
  | nonStr
  deriving DecidableEq

/-- Python `normalize` including the non-string guard of lines 81-82. -/
def normalizePy : PyStr → String
  | .nonStr => ""
  | .str s => normalize s

/-- The `Series.apply(normalize)` view of a nullable string cell: a `NaN`
cell is not a string, so lines 81-82 send it to `""`. -/
def normOpt : Option String → String
  | some s => normalize s
  | none => ""

/-- Characters that `normalize` can emit: word characters or the plain
space, already fixed under `Char.toLower`. -/
def goodChar (c : Char) : Bool :=
  (isWordChar c || c == ' ') && (Char.toLower c == c)

/-- Two adjacent characters are acceptable when they are not both
whitespace (the shape left behind by collapsing `\s+`). -/
def noPair (a b : Char) : Prop := ¬(isSpaceChar a = true ∧ isSpaceChar b = true)

/-! ### Values of the `FSR Position` / `position` columns -/

/-- Value of a position cell as pandas sees it: missing (`NaN`), a number,
or a non-numeric string left over from a malformed CSV cell. -/
inductive PosVal where
  | null
  | int (n : Int)
  | str (s : String)
  deriving DecidableEq

/-- Pandas `Series.notna` on one cell. -/
def PosVal.notna : PosVal → Bool
  | .null => false
  | _ => true

/-- Pandas element-wise `!=` on two cells (line 137): numbers compare by
value, strings compare by value, a number and a string are always unequal,
and `NaN` is unequal to everything. -/
def PosVal.neq : PosVal → PosVal → Bool
  | .null, _ => true
  | _, .null => true
  | .int a, .int b => a != b
  | .str a, .str b => a != b
  | .int _, .str _ => true
  | .str _, .int _ => true

/-! ### Records -/

/-- One row of the uploaded reference dataframe `df`, as it stands after
line 115 (`Metro` already filled to a string). -/
structure RefRecord where
  publishedName : Option String
  profileUrl : Option String
  category : Option String
  metro : String
  fsrPosition : PosVal
  deriving DecidableEq

/-- One scraped record as appended on lines 65-71. -/
structure ScrapedRecord where
  url : String
  category : String
  metro : String
  position : Nat
  name : String
  deriving DecidableEq

/-- Match key of a reference row (lines 118-122). -/
def refMatchKey (r : RefRecord) : String :=
  normOpt r.publishedName ++ "|" ++ normOpt r.category ++ "|" ++ normalize r.metro

/-- Match key of a scraped row (lines 123-127). -/
def scrMatchKey (s : ScrapedRecord) : String :=
  normalize s.name ++ "|" ++ normalize s.category ++ "|" ++ normalize s.metro

/-- One row of `final_df`: the scraped-side columns of `out_df`, the
reference-side columns of `df`, and the computed `comparison_issue`. -/
structure CompRecord where
  name : Option String
  url : Option String
  category : Option String
  metro : Option String
  position : Option Nat
  publishedName : Option String
  profileUrl : Option String
  refCategory : Option String
  refMetro : Option String
  fsrPosition : PosVal
  issue : String
  deriving DecidableEq

/-- The `comparison_issue` of a merged row (lines 130-139): a row whose
`PublishedName` is `NaN` after the left merge (no reference match, or a
reference row whose own `PublishedName` cell is `NaN`) is tagged
`missing from input`; otherwise the row is tagged `position mismatch`
exactly when both position cells are non-null and element-wise unequal,
and is left `""` otherwise. -/
def rowIssue (s : ScrapedRecord) (o : Option RefRecord) : String :=
  match o with
  | none => "missing from input"
  | some r =>
    match r.publishedName with
    | none => "missing from input"
    | some _ =>
      if (PosVal.int (s.position : Int)).notna && r.fsrPosition.notna &&
          (PosVal.int (s.position : Int)).neq r.fsrPosition
      then "position mismatch" else ""

/-- One row of `merged` (line 129): a scraped row together with the
reference row it merged with, or `none` for a left-merge miss, with the
issue of lines 130-139 already applied. -/
def mkJoinRow (s : ScrapedRecord) (o : Option RefRecord) : CompRecord :=
  { name := some s.name
    url := some s.url
    category := some s.category
    metro := some s.metro
    position := some s.position
    publishedName := o.bind RefRecord.publishedName
    profileUrl := o.bind RefRecord.profileUrl
    refCategory := o.bind RefRecord.category
    refMetro := o.map RefRecord.metro
    fsrPosition := match o with | none => PosVal.null | some r => r.fsrPosition
    issue := rowIssue s o }

/-- One row of `missing_rows` (lines 145-151): the reference row with the
scraped-side `name`, `url` and `position` set to `None` and the
scraped-side `category` and `metro` columns overwritten with the
reference `Category` and `Metro` values. -/
def mkMissingRow (r : RefRecord) : CompRecord :=
  { name := none
    url := none
    category := r.category
    metro := some r.metro
    position := none
    publishedName := r.publishedName
    profileUrl := r.profileUrl
    refCategory := r.category
    refMetro := some r.metro
    fsrPosition := r.fsrPosition
    issue := "missing from website" }

/-- The left merge of line 129 followed by the classification of lines
130-139: each scraped row in order is joined to every reference row (in
order) sharing its match key, and to a single all-`NaN` reference side
when no reference row matches. -/
def joinedRows (refs : List RefRecord) : List ScrapedRecord → List CompRecord
  | [] => []
  | s :: rest =>
    (if (refs.filter (fun r => refMatchKey r == scrMatchKey s)).isEmpty
     then [mkJoinRow s none]
     else (refs.filter (fun r => refMatchKey r == scrMatchKey s)).map
       (fun r => mkJoinRow s (some r)))
    ++ joinedRows refs rest

/-- Lines 141-151: the reference rows whose match key is absent from the
scraped key set, turned into `missing from website` rows. -/
def missingRows (refs : List RefRecord) (scraped : List ScrapedRecord) : List CompRecord :=
  (refs.filter (fun r => !(scraped.any (fun s => scrMatchKey s == refMatchKey r)))).map
    mkMissingRow

/-- Line 153: `final_df = pd.concat([merged, missing_rows])`. -/
def reconcile (refs : List RefRecord) (scraped : List ScrapedRecord) : List CompRecord :=
  joinedRows refs scraped ++ missingRows refs scraped

/-- The gate on line 110 (`if all_data:`): the whole comparison step runs
only when the scrape produced at least one record; otherwise the app
shows a warning (line 169) and produces no report. -/
def runComparison (refs : List RefRecord) (scraped : List ScrapedRecord) :
    Option (List CompRecord) :=
  if scraped.isEmpty then none else some (reconcile refs scraped)

/-! ### URL handling (`extract_category_and_metro`, lines 21-28) -/

/-- Everything before the first occurrence of `sep`, together with
everything after it; `none` when `sep` does not occur. -/
def splitFirst (sep : Char) : List Char → Option (List Char × List Char)
  | [] => none
  | c :: rest =>
    if c == sep then some ([], rest)
    else
      match splitFirst sep rest with
      | none => none
      | some (a, b) => some (c :: a, b)

/-- Characters allowed in a URL scheme by `urllib.parse`. -/
def isSchemeChar (c : Char) : Bool := c.isAlphanum || c == '+' || c == '-' || c == '.'

/-- Scheme removal of `urllib.parse.urlsplit`: when the text before the
first `:` is non-empty, starts with an ASCII letter and consists of
scheme characters, it is the scheme and is dropped together with the
colon; otherwise the URL is left untouched. -/
def stripScheme (l : List Char) : List Char :=
  match splitFirst ':' l with
  | none => l
  | some (before, after) =>
    if before ≠ [] ∧ (before.headD ' ').isAlpha = true ∧ before.all isSchemeChar = true
    then after else l

/-- Split of the remainder after `//` into the netloc (up to the first
`/`, `?` or `#`) and the rest. -/
def splitNetloc (l : List Char) : List Char × List Char :=
  (l.takeWhile (fun c => c != '/' && c != '?' && c != '#'),
   l.dropWhile (fun c => c != '/' && c != '?' && c != '#'))

/-- Model of `urlparse(url).path` inside the `try` of lines 22-26:
strip the scheme, consume the netloc when the remainder starts with `//`
(raising `ValueError`, modelled by `none`, on a mismatched IPv6 bracket
in the netloc, the one way `urlparse` can raise here), then drop the
fragment (after the first `#`) and the query (after the first `?`). -/
def urlPath (l : List Char) : Option (List Char) :=
  let rest := stripScheme l
  match rest with
  | '/' :: '/' :: tail =>
    let netloc := (splitNetloc tail).1
    let rest2 := (splitNetloc tail).2
    if (netloc.contains '[' && !(netloc.contains ']')) ||
        (netloc.contains ']' && !(netloc.contains '[')) then none
    else some ((rest2.takeWhile (fun c => c != '#')).takeWhile (fun c => c != '?'))
  | _ => some ((rest.takeWhile (fun c => c != '#')).takeWhile (fun c => c != '?'))

/-- Python `path.strip("/")` (line 23): remove leading and trailing
slashes. -/
def stripSlash (l : List Char) : List Char :=
  ((l.dropWhile (fun c => c == '/')).reverse.dropWhile (fun c => c == '/')).reverse

/-- Python `str.split("/")` (line 23): splitting the empty string yields
`[""]`, never the empty list. -/
def splitSlash : List Char → List (List Char)
  | [] => [[]]
  | c :: rest =>
    if c == '/' then [] :: splitSlash rest
    else
      match splitSlash rest with
      | [] => [[c]]
      | p :: ps => (c :: p) :: ps

/-- Python `segment.replace("-", " ")` (lines 24-25). -/
def dashToSpace (l : List Char) : List Char :=
  l.map (fun c => if c == '-' then ' ' else c)

/-- The function `extract_category_and_metro` of lines 21-28: the
exception branch yields `("unknown", "unknown")`; otherwise segment 0 of
the stripped path becomes the category and segment 1 the metro, each
guarded by the length tests `len(parts) > 0` and `len(parts) > 1` of
lines 24-25, with hyphens replaced by spaces. -/
def extract_category_and_metro (url : String) : String × String :=
  match urlPath url.toList with
  | none => ("unknown", "unknown")
  | some path =>
    let parts := splitSlash (stripSlash path)
    let category :=
      if 0 < parts.length then String.mk (dashToSpace (parts.getD 0 [])) else "unknown"
    let metro :=
      if 1 < parts.length then String.mk (dashToSpace (parts.getD 1 [])) else "unknown"
    (category, metro)

/-! ### Scraping one page (`scrape_company_data`, lines 46-78) -/

/-- One `div.company-row` block of the parsed page: `nameContent` is the
`content` attribute of its `meta[itemprop=name]` tag when that tag exists
and carries the attribute. -/
structure CompanyBlock where
  nameContent : Option String
  deriving DecidableEq

/-- Line 62: the extracted name is the stripped `content` attribute, or
the literal `"N/A"` when the tag or attribute is absent. -/
def extractName (b : CompanyBlock) : String :=
  match b.nameContent with
  | some s => String.mk (trimL s.toList)
  | none => "N/A"

/-- The loop of lines 60-71: `enumerate(company_blocks, start=1)` walks
every block, consuming one position per block, and appends a record only
when the extracted name is non-empty and not `"N/A"` (line 64). -/
def scrapeLoop (url category metro : String) : Nat → List CompanyBlock → List ScrapedRecord
  | _, [] => []
  | position, b :: rest =>
    (let name := extractName b
     if name ≠ "" ∧ name ≠ "N/A"
     then [{ url := url, category := category, metro := metro,
             position := position, name := name }]
     else [])
    ++ scrapeLoop url category metro (position + 1) rest

/-- The successful path of `scrape_company_data` (lines 54-74) on an
already-parsed page: derive the category and metro from the URL and run
the block loop from position 1. -/
def scrape_company_data (url : String) (blocks : List CompanyBlock) : List ScrapedRecord :=
  scrapeLoop url (extract_category_and_metro url).1 (extract_category_and_metro url).2 1 blocks

/-! ### Concrete sample records used in examples and witnesses -/

/-- A reference row for Ace Plumbing, expected at position 1. -/
def refA : RefRecord :=
  { publishedName := some "Ace Plumbing"
    profileUrl := some "https://x.com/top-plumbers/austin/ace"
    category := some "plumbers"
    metro := "austin"
    fsrPosition := PosVal.int 1 }

/-- A scraped row matching `refA`'s key but observed at position 2. -/
def scrA : ScrapedRecord :=
  { url := "https://x.com/top-plumbers/austin"
    category := "plumbers"
    metro := "austin"
    position := 2
    name := "Ace Plumbing" }

/-- A scraped row whose key no sample reference row shares. -/
def scrB : ScrapedRecord :=
  { url := "https://x.com/tires/dallas"
    category := "tires"
    metro := "dallas"
    position := 1
    name := "Bobs Tires" }

/-- A reference row whose `FSR Position` cell is a non-numeric string. -/
def refC : RefRecord :=
  { publishedName := some "Ace Plumbing"
    profileUrl := some "https://x.com/top-plumbers/austin/ace"
    category := some "plumbers"
    metro := "austin"
    fsrPosition := PosVal.str "abc" }

/-! ### Character-level lemmas -/

theorem toNat_ofNat_valid (n : Nat) (h : n < 55296) : (Char.ofNat n).toNat = n := by
  have hv : Nat.isValidChar n := Or.inl h
  rw [Char.ofNat, dif_pos hv]
  rfl

theorem toLower_toNat (c : Char) :
    (Char.toLower c).toNat = if 65 ≤ c.toNat ∧ c.toNat ≤ 90 then c.toNat + 32 else c.toNat := by
  unfold Char.toLower
  by_cases h : c.toNat ≥ 65 ∧ c.toNat ≤ 90
  · have hval : c.toNat ≤ 90 := h.2
    rw [if_pos h, if_pos ⟨h.1, h.2⟩, toNat_ofNat_valid _ (by omega)]
  · rw [if_neg h, if_neg (by omega)]

theorem toLower_eq_self (c : Char) (h : ¬(65 ≤ c.toNat ∧ c.toNat ≤ 90)) :
    Char.toLower c = c := by
  unfold Char.toLower
  rw [if_neg (by omega)]

theorem toLower_idem (c : Char) : Char.toLower (Char.toLower c) = Char.toLower c := by
  apply toLower_eq_self
  rw [toLower_toNat]
  by_cases h : 65 ≤ c.toNat ∧ c.toNat ≤ 90
  · rw [if_pos h]; omega
  · rw [if_neg h]; omega

theorem isSpaceChar_cases {c : Char} (h : isSpaceChar c = true) :
    c = ' ' ∨ c = '\t' ∨ c = '\n' ∨ c = '\r' ∨ c = '\x0b' ∨ c = '\x0c' := by
  simp only [isSpaceChar, Bool.or_eq_true, beq_iff_eq] at h
  tauto

theorem goodChar_space {c : Char} (hg : goodChar c = true) (hs : isSpaceChar c = true) :
    c = ' ' := by
  rcases isSpaceChar_cases hs with rfl | rfl | rfl | rfl | rfl | rfl
  · rfl
  all_goals exact absurd hg (by decide)

theorem goodChar_word_or_space {c : Char} (hg : goodChar c = true) :
    (isWordChar c || isSpaceChar c) = true := by
  simp only [goodChar, Bool.and_eq_true, Bool.or_eq_true, beq_iff_eq] at hg
  rcases hg.1 with h | rfl
  · simp [h]
  · decide

theorem goodChar_not_amp {c : Char} (hg : goodChar c = true) : (c == '&') = false := by
  by_contra hne
  have : c = '&' := by
    cases hcc : c == '&'
    · exact absurd hcc hne
    · exact beq_iff_eq.mp hcc
  subst this
  exact absurd hg (by decide)

theorem goodChar_lower {c : Char} (hg : goodChar c = true) : Char.toLower c = c := by
  simp only [goodChar, Bool.and_eq_true, beq_iff_eq] at hg
  exact hg.2

/-! ### Membership lemmas for the `normalize` pipeline -/

theorem mem_ampL {c : Char} {l : List Char} (h : c ∈ ampL l) :
    c ∈ l ∨ c = 'a' ∨ c = 'n' ∨ c = 'd' := by
  induction l with
  | nil => simp [ampL] at h
  | cons d rest ih =>
    rw [ampL] at h
    by_cases hd : d == '&'
    · rw [if_pos hd] at h
      simp only [List.mem_cons] at h
      rcases h with rfl | rfl | rfl | h
      · exact Or.inr (Or.inl rfl)
      · exact Or.inr (Or.inr (Or.inl rfl))
      · exact Or.inr (Or.inr (Or.inr rfl))
      · rcases ih h with h2 | h2
        · exact Or.inl (List.mem_cons_of_mem _ h2)
        · exact Or.inr h2
    · rw [if_neg hd] at h
      rcases List.mem_cons.mp h with rfl | h
      · exact Or.inl (List.mem_cons_self _ _)
      · rcases ih h with h2 | h2
        · exact Or.inl (List.mem_cons_of_mem _ h2)
        · exact Or.inr h2

theorem mem_collapseAux {c : Char} {l : List Char} :
    ∀ {b : Bool}, c ∈ collapseAux b l → c = ' ' ∨ (c ∈ l ∧ isSpaceChar c = false) := by
  induction l with
  | nil => intro b h; simp [collapseAux] at h
  | cons d rest ih =>
    intro b h
    rw [collapseAux] at h
    by_cases hd : isSpaceChar d
    · rw [if_pos hd] at h
      by_cases hb : b
      · subst hb
        rw [if_pos rfl] at h
        rcases ih h with h2 | h2
        · exact Or.inl h2
        · exact Or.inr ⟨List.mem_cons_of_mem _ h2.1, h2.2⟩
      · rw [Bool.not_eq_true] at hb
        subst hb
        rw [if_neg (by simp)] at h
        rcases List.mem_cons.mp h with rfl | h
        · exact Or.inl rfl
        · rcases ih h with h2 | h2
          · exact Or.inl h2
          · exact Or.inr ⟨List.mem_cons_of_mem _ h2.1, h2.2⟩
    · rw [if_neg hd] at h
      rcases List.mem_cons.mp h with rfl | h
      · exact Or.inr ⟨List.mem_cons_self _ _, by simpa using hd⟩
      · rcases ih h with h2 | h2
        · exact Or.inl h2
        · exact Or.inr ⟨List.mem_cons_of_mem _ h2.1, h2.2⟩

theorem mem_trimL {c : Char} {l : List Char} (h : c ∈ trimL l) : c ∈ l := by
  rw [trimL, List.mem_reverse] at h
  have h2 := (List.dropWhile_sublist isSpaceChar).subset h
  rw [List.mem_reverse] at h2
  exact (List.dropWhile_sublist isSpaceChar).subset h2

theorem mem_normalizeL_good {c : Char} {l : List Char} (h : c ∈ normalizeL l) :
    goodChar c = true := by
  rw [normalizeL] at h
  have h1 := mem_trimL h
  rw [collapseL] at h1
  rcases mem_collapseAux h1 with rfl | ⟨h2, hns⟩
  · decide
  · rw [filterL, List.mem_filter] at h2
    have hword : isWordChar c = true := by
      rcases (by simpa using h2.2 : isWordChar c = true ∨ isSpaceChar c = true) with hw | hs
      · exact hw
      · rw [hs] at hns; exact absurd hns (by simp)
    have hfix : Char.toLower c = c := by
      rcases mem_ampL h2.1 with h3 | rfl | rfl | rfl
      · rw [lowerL] at h3
        rcases List.mem_map.mp h3 with ⟨c₀, _, rfl⟩
        exact toLower_idem c₀
      all_goals decide
    simp [goodChar, hword, hfix]

/-! ### Shape of the collapsed list -/

theorem collapseAux_head {l : List Char} {c : Char}
    (h : (collapseAux true l).head? = some c) : isSpaceChar c = false := by
  induction l with
  | nil => simp [collapseAux] at h
  | cons d rest ih =>
    rw [collapseAux] at h
    by_cases hd : isSpaceChar d
    · rw [if_pos hd, if_pos rfl] at h
      exact ih h
    · rw [if_neg hd] at h
      simp only [List.head?_cons, Option.some_inj] at h
      subst h
      simpa using hd

theorem chain'_collapseAux (l : List Char) : ∀ b, List.Chain' noPair (collapseAux b l) := by
  induction l with
  | nil => intro b; simp [collapseAux]
  | cons d rest ih =>
    intro b
    rw [collapseAux]
    by_cases hd : isSpaceChar d
    · rw [if_pos hd]
      by_cases hb : b
      · subst hb; rw [if_pos rfl]; exact ih true
      · rw [Bool.not_eq_true] at hb
        subst hb
        rw [if_neg (by simp)]
        rw [List.chain'_cons']
        refine ⟨?_, ih true⟩
        intro y hy
        have := collapseAux_head hy
        exact fun hp => by rw [this] at hp; exact absurd hp.2 (by simp)
    · rw [if_neg hd]
      rw [List.chain'_cons']
      refine ⟨?_, ih false⟩
      intro y hy
      exact fun hp => hd hp.1

/-! ### Fixed points of the pipeline stages -/

theorem lowerL_eq_self {l : List Char} (h : ∀ c ∈ l, Char.toLower c = c) :
    lowerL l = l := by
  rw [lowerL, List.map_congr_left h]
  simp

theorem ampL_eq_self {l : List Char} (h : ∀ c ∈ l, (c == '&') = false) : ampL l = l := by
  induction l with
  | nil => rfl
  | cons d rest ih =>
    rw [ampL, if_neg (by rw [h d (List.mem_cons_self _ _)]; simp),
      ih (fun c hc => h c (List.mem_cons_of_mem _ hc))]

theorem filterL_eq_self {l : List Char} (h : ∀ c ∈ l, (isWordChar c || isSpaceChar c) = true) :
    filterL l = l := by
  rw [filterL, List.filter_eq_self.mpr h]

theorem collapseAux_eq_self {l : List Char} :
    ∀ {b : Bool}, (∀ c ∈ l, isSpaceChar c = true → c = ' ') → List.Chain' noPair l →
    (b = true → ∀ c, l.head? = some c → isSpaceChar c = false) → collapseAux b l = l := by
  induction l with
  | nil => intro b _ _ _; rfl
  | cons d rest ih =>
    intro b hsp hch hhd
    rw [collapseAux]
    by_cases hd : isSpaceChar d
    · have hb : b = false := by
        cases b
        · rfl
        · exact absurd (hhd rfl d (by simp)) (by simp [hd])
      subst hb
      rw [if_pos hd, if_neg (by simp)]
      have hd' : d = ' ' := hsp d (List.mem_cons_self _ _) hd
      subst hd'
      congr 1
      refine ih (fun c hc h2 => hsp c (List.mem_cons_of_mem _ hc) h2) hch.tail ?_
      intro _ c hc
      have hrel := (List.chain'_cons'.mp hch).1 c hc
      by_contra hcs
      rw [Bool.not_eq_false] at hcs
      exact hrel ⟨hd, hcs⟩
    · rw [if_neg hd]
      congr 1
      exact ih (fun c hc h2 => hsp c (List.mem_cons_of_mem _ hc) h2) hch.tail (by simp)

theorem dropWhile_head_false {p : Char → Bool} {l : List Char} {c : Char}
    (h : (l.dropWhile p).head? = some c) : p c = false := by
  induction l with
  | nil => simp [List.dropWhile] at h
  | cons d rest ih =>
    rw [List.dropWhile_cons] at h
    by_cases hd : p d
    · rw [if_pos hd] at h; exact ih h
    · rw [if_neg hd] at h
      simp only [List.head?_cons, Option.some_inj] at h
      subst h
      simpa using hd

theorem dropWhile_eq_self_of_head {p : Char → Bool} {l : List Char}
    (h : ∀ c, l.head? = some c → p c = false) : l.dropWhile p = l := by
  cases l with
  | nil => rfl
  | cons d rest =>
    rw [List.dropWhile_cons, if_neg (by rw [h d (by simp)]; simp)]

theorem trimL_eq_self {l : List Char}
    (h1 : ∀ c, l.head? = some c → isSpaceChar c = false)
    (h2 : ∀ c, l.getLast? = some c → isSpaceChar c = false) : trimL l = l := by
  rw [trimL, dropWhile_eq_self_of_head h1, dropWhile_eq_self_of_head ?_,
    List.reverse_reverse]
  intro c hc
  rw [List.head?_reverse] at hc
  exact h2 c hc

/-! ### Shape of the normalized output -/

theorem trimL_isPrefix (m : List Char) : trimL m <+: m.dropWhile isSpaceChar := by
  rw [← List.reverse_suffix, trimL, List.reverse_reverse]
  exact List.dropWhile_suffix _

theorem trimL_contained (m : List Char) : trimL m <:+: m :=
  List.infix_iff_prefix_suffix.mpr
    ⟨m.dropWhile isSpaceChar, trimL_isPrefix m, List.dropWhile_suffix _⟩

theorem trimL_head {m : List Char} {c : Char} (h : (trimL m).head? = some c) :
    isSpaceChar c = false := by
  obtain ⟨t, ht⟩ := List.head?_eq_some_iff.mp h
  obtain ⟨r, hr⟩ := trimL_isPrefix m
  rw [ht] at hr
  apply dropWhile_head_false (l := m) (c := c)
  rw [← hr]
  simp

theorem trimL_last {m : List Char} {c : Char} (h : (trimL m).getLast? = some c) :
    isSpaceChar c = false := by
  rw [trimL, List.getLast?_reverse] at h
  exact dropWhile_head_false h

theorem chain'_normalizeL (l : List Char) : List.Chain' noPair (normalizeL l) := by
  rw [normalizeL, collapseL]
  exact List.Chain'.infix (chain'_collapseAux _ false) (trimL_contained _)

/-! ### Idempotence of `normalize` -/

theorem normalizeL_idem (l : List Char) : normalizeL (normalizeL l) = normalizeL l := by
  have hg : ∀ c ∈ normalizeL l, goodChar c = true := fun c hc => mem_normalizeL_good hc
  conv_lhs => rw [normalizeL]
  rw [lowerL_eq_self (fun c hc => goodChar_lower (hg c hc)),
    ampL_eq_self (fun c hc => goodChar_not_amp (hg c hc)),
    filterL_eq_self (fun c hc => goodChar_word_or_space (hg c hc))]
  rw [collapseL,
    collapseAux_eq_self (fun c hc hs => goodChar_space (hg c hc) hs)
      (chain'_normalizeL l) (by simp)]
  refine trimL_eq_self ?_ ?_
  · intro c hc
    rw [normalizeL] at hc
    exact trimL_head hc
  · intro c hc
    rw [normalizeL] at hc
    exact trimL_last hc

/-- C6: `normalize` is total: any non-string input yields the empty string,
and a string is processed by lowercasing, replacing `&` with `and`,
deleting characters that are neither word characters nor whitespace,
collapsing whitespace runs to one space, and trimming, in that order; in
particular `normalize "A & B, Inc."` equals `normalize "a and b inc"`. -/
theorem normalize_steps_and_example :
    normalizePy PyStr.nonStr = "" ∧
    (∀ s : String, normalizePy (PyStr.str s) =
      String.mk (trimL (collapseL (filterL (ampL (lowerL s.toList)))))) ∧
    normalize "A & B, Inc." = normalize "a and b inc" :=
  ⟨rfl, fun _ => rfl, by decide⟩

/-- C7: `normalize` is idempotent: `normalize (normalize x) = normalize x`
for every string `x`. -/
theorem normalize_idempotent (x : String) : normalize (normalize x) = normalize x := by
  unfold normalize
  congr 1
  have h : (String.mk (normalizeL x.toList)).toList = normalizeL x.toList := rfl
  rw [h, normalizeL_idem]

/-! ### Reconciler helper lemmas -/

theorem issue_mkJoinRow_some (s : ScrapedRecord) (r : RefRecord) {nm : String}
    (hnm : r.publishedName = some nm) :
    (mkJoinRow s (some r)).issue =
      if (r.fsrPosition.notna && (PosVal.int (s.position : Int)).neq r.fsrPosition) = true
      then "position mismatch" else "" := by
  show rowIssue s (some r) = _
  rw [rowIssue, hnm]
  simp [PosVal.notna]

theorem mem_joinedRows_some {refs : List RefRecord} {scraped : List ScrapedRecord}
    {r : RefRecord} {s : ScrapedRecord} (hr : r ∈ refs) (hs : s ∈ scraped)
    (hkey : refMatchKey r = scrMatchKey s) :
    mkJoinRow s (some r) ∈ joinedRows refs scraped := by
  induction scraped with
  | nil => simp at hs
  | cons t rest ih =>
    rw [joinedRows]
    rcases List.mem_cons.mp hs with rfl | hs2
    · apply List.mem_append_left
      have hmem : r ∈ refs.filter (fun x => refMatchKey x == scrMatchKey s) :=
        List.mem_filter.mpr ⟨hr, by rw [beq_iff_eq]; exact hkey⟩
      rw [if_neg (by rw [List.isEmpty_iff]; exact List.ne_nil_of_mem hmem)]
      exact List.mem_map.mpr ⟨r, hmem, rfl⟩
    · exact List.mem_append_right _ (ih hs2)

theorem mem_joinedRows_exists {refs : List RefRecord} {scraped : List ScrapedRecord}
    {s : ScrapedRecord} (hs : s ∈ scraped) :
    ∃ o, mkJoinRow s o ∈ joinedRows refs scraped := by
  induction scraped with
  | nil => simp at hs
  | cons t rest ih =>
    rw [joinedRows]
    rcases List.mem_cons.mp hs with rfl | hs2
    · by_cases hemp : (refs.filter (fun r => refMatchKey r == scrMatchKey s)).isEmpty = true
      · exact ⟨none, List.mem_append_left _ (by rw [if_pos hemp]; simp)⟩
      · rcases hfe : refs.filter (fun r => refMatchKey r == scrMatchKey s) with _ | ⟨r0, ms⟩
        · rw [hfe] at hemp; simp at hemp
        · refine ⟨some r0, List.mem_append_left _ ?_⟩
          rw [if_neg (by simp)]
          exact List.mem_map.mpr ⟨r0, List.mem_cons_self _ _, rfl⟩
    · rcases ih hs2 with ⟨o, ho⟩
      exact ⟨o, List.mem_append_right _ ho⟩

theorem mkJoinRow_scr_eq {t s : ScrapedRecord} {o o₂ : Option RefRecord}
    (h : mkJoinRow t o = mkJoinRow s o₂) : t = s := by
  have h1 := congrArg CompRecord.name h
  have h2 := congrArg CompRecord.url h
  have h3 := congrArg CompRecord.category h
  have h4 := congrArg CompRecord.metro h
  have h5 := congrArg CompRecord.position h
  simp only [mkJoinRow, Option.some_inj] at h1 h2 h3 h4 h5
  cases t; cases s
  simp_all

theorem mkJoinRow_none_ne_some (t s : ScrapedRecord) (r : RefRecord) :
    mkJoinRow t (some r) ≠ mkJoinRow s none := by
  intro h
  have := congrArg CompRecord.refMetro h
  simp [mkJoinRow] at this

theorem mkMissingRow_inj {r r₂ : RefRecord} (h : mkMissingRow r = mkMissingRow r₂) :
    r = r₂ := by
  have h1 := congrArg CompRecord.publishedName h
  have h2 := congrArg CompRecord.profileUrl h
  have h3 := congrArg CompRecord.refCategory h
  have h4 := congrArg CompRecord.refMetro h
  have h5 := congrArg CompRecord.fsrPosition h
  simp only [mkMissingRow, Option.some_inj] at h1 h2 h3 h4 h5
  cases r; cases r₂
  simp_all

theorem joinRow_ne_missingRow (s : ScrapedRecord) (o : Option RefRecord) (r : RefRecord) :
    mkJoinRow s o ≠ mkMissingRow r := by
  intro h
  have := congrArg CompRecord.name h
  simp [mkJoinRow, mkMissingRow] at this

theorem mem_joinedRows_shape {refs : List RefRecord} {scraped : List ScrapedRecord}
    {c : CompRecord} (hc : c ∈ joinedRows refs scraped) :
    ∃ s o, c = mkJoinRow s o := by
  induction scraped with
  | nil => simp [joinedRows] at hc
  | cons t rest ih =>
    rw [joinedRows] at hc
    rcases List.mem_append.mp hc with h | h
    · by_cases hemp : (refs.filter (fun r => refMatchKey r == scrMatchKey t)).isEmpty = true
      · rw [if_pos hemp] at h
        rcases List.mem_cons.mp h with rfl | h2
        · exact ⟨t, none, rfl⟩
        · simp at h2
      · rw [if_neg hemp] at h
        rcases List.mem_map.mp h with ⟨r, _, rfl⟩
        exact ⟨t, some r, rfl⟩
    · exact ih h

theorem countP_missingRows_joinNone (refs : List RefRecord) (scraped : List ScrapedRecord)
    (s : ScrapedRecord) :
    (missingRows refs scraped).countP (fun c => c == mkJoinRow s none) = 0 := by
  rw [List.countP_eq_zero]
  intro c hc
  rcases List.mem_map.mp hc with ⟨r, _, rfl⟩
  simp only [beq_iff_eq, decide_eq_true_eq]
  exact fun h => joinRow_ne_missingRow s none r h.symm

theorem countP_joinedRows_missing (refs : List RefRecord) (scraped : List ScrapedRecord)
    (r : RefRecord) :
    (joinedRows refs scraped).countP (fun c => c == mkMissingRow r) = 0 := by
  rw [List.countP_eq_zero]
  intro c hc
  rcases mem_joinedRows_shape hc with ⟨s, o, rfl⟩
  simp only [beq_iff_eq, decide_eq_true_eq]
  exact joinRow_ne_missingRow s o r

theorem countP_joinedRows_none {refs : List RefRecord} {s : ScrapedRecord}
    (hnone : ∀ r ∈ refs, refMatchKey r ≠ scrMatchKey s) (scraped : List ScrapedRecord) :
    (joinedRows refs scraped).countP (fun c => c == mkJoinRow s none) = scraped.count s := by
  induction scraped with
  | nil => simp [joinedRows]
  | cons t rest ih =>
    rw [joinedRows, List.countP_append, ih, List.count_cons]
    have hblock :
        (if (refs.filter (fun x => refMatchKey x == scrMatchKey t)).isEmpty
         then [mkJoinRow t none]
         else (refs.filter (fun x => refMatchKey x == scrMatchKey t)).map
           (fun x => mkJoinRow t (some x))).countP (fun c => c == mkJoinRow s none) =
        if (t == s) = true then 1 else 0 := by
      by_cases hts : t = s
      · subst hts
        have hempty : refs.filter (fun x => refMatchKey x == scrMatchKey t) = [] := by
          rw [List.filter_eq_nil_iff]
          intro x hx
          simp only [beq_iff_eq]
          exact fun hk => hnone x hx (by simpa using hk)
        rw [hempty]
        simp
      · have hrhs : (if (t == s) = true then 1 else 0) = 0 :=
          if_neg (by simpa using hts)
        rw [hrhs]
        apply List.countP_eq_zero.mpr
        intro c hc
        by_cases hemp : (refs.filter (fun x => refMatchKey x == scrMatchKey t)).isEmpty = true
        · rw [if_pos hemp] at hc
          rcases List.mem_cons.mp hc with rfl | h2
          · simp only [beq_iff_eq, decide_eq_true_eq]
            exact fun h => hts (mkJoinRow_scr_eq h)
          · simp at h2
        · rw [if_neg hemp] at hc
          rcases List.mem_map.mp hc with ⟨x, _, rfl⟩
          simp only [beq_iff_eq, decide_eq_true_eq]
          exact fun h => hts (mkJoinRow_scr_eq h)
    rw [hblock]
    omega

theorem countP_missingRows_self {scraped : List ScrapedRecord} {r : RefRecord}
    (hunmatched : ∀ s ∈ scraped, scrMatchKey s ≠ refMatchKey r) (refs : List RefRecord) :
    (missingRows refs scraped).countP (fun c => c == mkMissingRow r) = refs.count r := by
  induction refs with
  | nil => simp [missingRows]
  | cons a rest ih =>
    rw [missingRows, List.filter_cons]
    rw [missingRows] at ih
    by_cases ha : (!(scraped.any (fun s => scrMatchKey s == refMatchKey a))) = true
    · rw [if_pos ha, List.map_cons, List.countP_cons, ih, List.count_cons]
      congr 1
      by_cases har : a = r
      · subst har; simp
      · rw [if_neg (c := (mkMissingRow a == mkMissingRow r) = true)
            (by simp only [beq_iff_eq, decide_eq_true_eq]; exact fun h => har (mkMissingRow_inj h)),
          if_neg (by simpa using har)]
    · rw [if_neg ha, ih, List.count_cons, if_neg]
      · omega
      · simp only [beq_iff_eq]
        intro haeq
        subst haeq
        apply ha
        simp only [Bool.not_eq_true']
        rw [List.any_eq_false]
        intro s hs
        simp only [beq_iff_eq]
        exact hunmatched s hs

theorem filter_key_length_le_one {refs : List RefRecord}
    (h : (refs.map refMatchKey).Nodup) (k : String) :
    (refs.filter (fun r => refMatchKey r == k)).length ≤ 1 := by
  induction refs with
  | nil => simp
  | cons r rest ih =>
    rw [List.map_cons, List.nodup_cons] at h
    rw [List.filter_cons]
    by_cases hk : (refMatchKey r == k) = true
    · rw [if_pos hk]
      have hempty : rest.filter (fun x => refMatchKey x == k) = [] := by
        rw [List.filter_eq_nil_iff]
        intro a ha hak
        apply h.1
        rw [List.mem_map]
        refine ⟨a, ha, ?_⟩
        rw [beq_iff_eq] at hak hk
        rw [hak, hk]
      rw [hempty]
      simp
    · rw [if_neg hk]
      exact ih h.2

theorem joinedRows_length_eq {refs : List RefRecord}
    (h : (refs.map refMatchKey).Nodup) (scraped : List ScrapedRecord) :
    (joinedRows refs scraped).length = scraped.length := by
  induction scraped with
  | nil => simp [joinedRows]
  | cons t rest ih =>
    rw [joinedRows, List.length_append, ih, List.length_cons]
    have hb : (if (refs.filter (fun r => refMatchKey r == scrMatchKey t)).isEmpty = true
        then [mkJoinRow t none]
        else (refs.filter (fun r => refMatchKey r == scrMatchKey t)).map
          (fun r => mkJoinRow t (some r))).length = 1 := by
      by_cases hemp : (refs.filter (fun r => refMatchKey r == scrMatchKey t)).isEmpty = true
      · rw [if_pos hemp]; rfl
      · rw [if_neg hemp, List.length_map]
        have hle := filter_key_length_le_one h (scrMatchKey t)
        have hne : refs.filter (fun r => refMatchKey r == scrMatchKey t) ≠ [] := by
          intro hnil
          rw [hnil] at hemp
          simp at hemp
        have hpos := List.length_pos.mpr hne
        omega
    rw [hb]
    omega

/-! ### Claims about the reconciler -/

/-- C1: a reference/scraped pair joined on an equal match key (with the
reference name present, as the data model requires of a reference record)
is classified `position mismatch` exactly when the expected position cell
is non-null and the two position cells compare unequal, and carries no
issue (the empty tag) otherwise. -/
theorem joined_pair_issue_iff (refs : List RefRecord) (scraped : List ScrapedRecord)
    (r : RefRecord) (s : ScrapedRecord) (nm : String) (hr : r ∈ refs) (hs : s ∈ scraped)
    (hkey : refMatchKey r = scrMatchKey s) (hnm : r.publishedName = some nm) :
    mkJoinRow s (some r) ∈ reconcile refs scraped ∧
    ((mkJoinRow s (some r)).issue = "position mismatch" ↔
      r.fsrPosition.notna = true ∧
        (PosVal.int (s.position : Int)).neq r.fsrPosition = true) ∧
    ((mkJoinRow s (some r)).issue = "" ↔
      ¬(r.fsrPosition.notna = true ∧
        (PosVal.int (s.position : Int)).neq r.fsrPosition = true)) := by
  have hiss := issue_mkJoinRow_some s r hnm
  refine ⟨List.mem_append_left _ (mem_joinedRows_some hr hs hkey), ?_, ?_⟩
  all_goals
    by_cases hcond :
      (r.fsrPosition.notna && (PosVal.int (s.position : Int)).neq r.fsrPosition) = true
  · rw [if_pos hcond] at hiss
    rw [hiss]
    simp only [Bool.and_eq_true] at hcond
    exact ⟨fun _ => hcond, fun _ => rfl⟩
  · rw [if_neg hcond] at hiss
    rw [hiss]
    simp only [Bool.and_eq_true] at hcond
    constructor
    · intro h; exact absurd h (by decide)
    · intro h; exact absurd h hcond
  · rw [if_pos hcond] at hiss
    rw [hiss]
    simp only [Bool.and_eq_true] at hcond
    constructor
    · intro h; exact absurd h (by decide)
    · intro h; exact absurd hcond h
  · rw [if_neg hcond] at hiss
    rw [hiss]
    simp only [Bool.and_eq_true] at hcond
    exact ⟨fun _ => hcond, fun _ => rfl⟩

theorem joined_pair_issue_iff_witness :
    mkJoinRow scrA (some refA) ∈ reconcile [refA] [scrA] ∧
    ((mkJoinRow scrA (some refA)).issue = "position mismatch" ↔
      refA.fsrPosition.notna = true ∧
        (PosVal.int (scrA.position : Int)).neq refA.fsrPosition = true) ∧
    ((mkJoinRow scrA (some refA)).issue = "" ↔
      ¬(refA.fsrPosition.notna = true ∧
        (PosVal.int (scrA.position : Int)).neq refA.fsrPosition = true)) :=
  joined_pair_issue_iff [refA] [scrA] refA scrA "Ace Plumbing"
    (by decide) (by decide) (by decide) (by decide)

/-- C3: every scraped record appears at least once in the report, and a
scraped record occurring once whose match key no reference row shares
yields exactly one comparison row, tagged `missing from input`, with
every reference-side field null. -/
theorem scraped_coverage_and_unmatched (refs : List RefRecord) (scraped : List ScrapedRecord)
    (s : ScrapedRecord) (hs : s ∈ scraped) :
    (∃ o, mkJoinRow s o ∈ reconcile refs scraped) ∧
    ((∀ r ∈ refs, refMatchKey r ≠ scrMatchKey s) → scraped.count s = 1 →
      (reconcile refs scraped).countP (fun c => c == mkJoinRow s none) = 1 ∧
      (mkJoinRow s none).issue = "missing from input" ∧
      (mkJoinRow s none).publishedName = none ∧
      (mkJoinRow s none).profileUrl = none ∧
      (mkJoinRow s none).refCategory = none ∧
      (mkJoinRow s none).refMetro = none ∧
      (mkJoinRow s none).fsrPosition = PosVal.null) := by
  constructor
  · rcases @mem_joinedRows_exists refs scraped s hs with ⟨o, ho⟩
    exact ⟨o, List.mem_append_left _ ho⟩
  · intro hnone hcount
    refine ⟨?_, rfl, rfl, rfl, rfl, rfl, rfl⟩
    rw [reconcile, List.countP_append, countP_joinedRows_none hnone scraped,
      countP_missingRows_joinNone, hcount]

theorem scraped_coverage_and_unmatched_witness :
    (∃ o, mkJoinRow scrB o ∈ reconcile [refA] [scrB]) ∧
    (reconcile [refA] [scrB]).countP (fun c => c == mkJoinRow scrB none) = 1 := by
  have h := scraped_coverage_and_unmatched [refA] [scrB] scrB (by decide)
  exact ⟨h.1, (h.2 (by decide) (by decide)).1⟩

/-- C5: when no match key is duplicated among the reference rows the join
step emits exactly one row per scraped record, and a join row count
exceeding the scraped record count forces a duplicated reference key. -/
theorem join_row_count (refs : List RefRecord) (scraped : List ScrapedRecord) :
    ((refs.map refMatchKey).Nodup → (joinedRows refs scraped).length = scraped.length) ∧
    (scraped.length < (joinedRows refs scraped).length → ¬(refs.map refMatchKey).Nodup) := by
  refine ⟨fun h => joinedRows_length_eq h scraped, fun hlt h => ?_⟩
  rw [joinedRows_length_eq h scraped] at hlt
  omega

theorem join_row_count_witness :
    ([refA].map refMatchKey).Nodup ∧
    (joinedRows [refA] [scrA, scrB]).length = [scrA, scrB].length :=
  ⟨by decide, (join_row_count [refA] [scrA, scrB]).1 (by decide)⟩

/-- C2 fails as stated: the synthesized `missing from website` row for a
reference record keeps the reference `Category` and `Metro` values in its
scraped-side `category` and `metro` columns (source lines 149-150)
instead of leaving all scraped-side fields null. -/
theorem missing_row_fields_cx :
    ¬(∀ c ∈ reconcile [refA] [scrB],
        c.issue = "missing from website" → c.category = none ∧ c.metro = none) := by
  intro h
  have hmem : mkMissingRow refA ∈ reconcile [refA] [scrB] := by decide
  have hcat := (h _ hmem rfl).1
  simp [mkMissingRow, refA] at hcat

/-- C2 (amended): a reference record occurring once whose match key has no
scraped match yields exactly one synthesized row, tagged
`missing from website`, whose scraped-side `name`, `url` and `position`
are null, while its scraped-side `category` and `metro` are copied from
the reference record's `Category` and `Metro`. -/
theorem missing_from_website_rows (refs : List RefRecord) (scraped : List ScrapedRecord)
    (r : RefRecord) (hcount : refs.count r = 1)
    (hunmatched : ∀ s ∈ scraped, scrMatchKey s ≠ refMatchKey r) :
    (reconcile refs scraped).countP (fun c => c == mkMissingRow r) = 1 ∧
    (mkMissingRow r).issue = "missing from website" ∧
    (mkMissingRow r).name = none ∧ (mkMissingRow r).url = none ∧
    (mkMissingRow r).position = none ∧
    (mkMissingRow r).category = r.category ∧
    (mkMissingRow r).metro = some r.metro := by
  refine ⟨?_, rfl, rfl, rfl, rfl, rfl, rfl⟩
  rw [reconcile, List.countP_append, countP_joinedRows_missing,
    countP_missingRows_self hunmatched refs, hcount]

theorem missing_from_website_rows_witness :
    (reconcile [refA] [scrB]).countP (fun c => c == mkMissingRow refA) = 1 ∧
    (mkMissingRow refA).category = refA.category :=
  ⟨(missing_from_website_rows [refA] [scrB] refA (by decide) (by decide)).1,
   (missing_from_website_rows [refA] [scrB] refA (by decide) (by decide)).2.2.2.2.2.1⟩

/-- C9 fails as stated: a reference row whose expected position is the
non-numeric string `"abc"` still joins and is classified
`position mismatch`; its malformed cell is not treated as unknown. -/
theorem malformed_position_cx :
    refC.fsrPosition = PosVal.str "abc" ∧
    ¬(∀ c ∈ reconcile [refC] [scrA], c.issue ≠ "position mismatch") := by
  refine ⟨rfl, fun h => ?_⟩
  exact h (mkJoinRow scrA (some refC)) (by decide) rfl

/-- C9 (amended): a non-numeric expected position is not treated as
position-unknown: the cell is non-null and compares unequal to every
numeric scraped position, so a joined pair with such a reference row is
always classified `position mismatch`; the computation stays total, so
the run still does not fail. -/
theorem malformed_position_mismatch (refs : List RefRecord) (scraped : List ScrapedRecord)
    (r : RefRecord) (s : ScrapedRecord) (nm t : String) (hr : r ∈ refs) (hs : s ∈ scraped)
    (hkey : refMatchKey r = scrMatchKey s) (hnm : r.publishedName = some nm)
    (hstr : r.fsrPosition = PosVal.str t) :
    mkJoinRow s (some r) ∈ reconcile refs scraped ∧
    (mkJoinRow s (some r)).issue = "position mismatch" := by
  refine ⟨List.mem_append_left _ (mem_joinedRows_some hr hs hkey), ?_⟩
  rw [issue_mkJoinRow_some s r hnm, hstr]
  rfl

theorem malformed_position_mismatch_witness :
    mkJoinRow scrA (some refC) ∈ reconcile [refC] [scrA] ∧
    (mkJoinRow scrA (some refC)).issue = "position mismatch" :=
  malformed_position_mismatch [refC] [scrA] refC scrA "Ace Plumbing" "abc"
    (by decide) (by decide) (by decide) (by decide) (by decide)

/-- C4 fails as stated: with zero scraped records the comparison step is
skipped by the `if all_data:` gate of line 110, so no report is produced
at all, rather than a report tagging every reference record. -/
theorem empty_scrape_cx :
    runComparison [refA] [] = none ∧ ¬∃ out, runComparison [refA] [] = some out := by
  refine ⟨rfl, ?_⟩
  rintro ⟨out, h⟩
  simp [runComparison] at h

/-- C4 (amended): with zero scraped records the app skips the comparison
and produces no report, only a warning; the reconciliation logic itself,
had it been run, would classify every reference record
`missing from website`. -/
theorem empty_scrape_skipped (refs : List RefRecord) :
    runComparison refs [] = none ∧
    ∀ c ∈ reconcile refs [], c.issue = "missing from website" := by
  refine ⟨rfl, ?_⟩
  intro c hc
  rw [reconcile] at hc
  rcases List.mem_append.mp hc with h | h
  · simp [joinedRows] at h
  · rcases List.mem_map.mp h with ⟨r, _, rfl⟩
    rfl

theorem empty_scrape_skipped_witness :
    runComparison [refA] [] = none ∧ (mkMissingRow refA).issue = "missing from website" :=
  ⟨(empty_scrape_skipped [refA]).1,
   (empty_scrape_skipped [refA]).2 (mkMissingRow refA) (by decide)⟩

/-! ### URL label claims -/

theorem splitSlash_length_pos (l : List Char) : 0 < (splitSlash l).length := by
  induction l with
  | nil => simp [splitSlash]
  | cons c rest ih =>
    rw [splitSlash]
    by_cases hc : (c == '/') = true
    · rw [if_pos hc]; simp
    · rw [if_neg hc]
      rcases hsp : splitSlash rest with _ | ⟨p, ps⟩
      · simp
      · simp

/-- C8 fails as stated: a URL with an empty path yields the empty string
for the category label, not the literal `unknown`, because splitting the
empty path produces one empty segment and the `len(parts) > 0` guard of
line 24 never fires. -/
theorem url_no_segments_cx :
    extract_category_and_metro "https://example.com" = ("", "unknown") ∧
    ("" : String) ≠ "unknown" := by
  exact ⟨by decide, by decide⟩

/-- C8 (amended): labels derive from path segments with hyphens replaced
by spaces; splitting a path always yields at least one, possibly empty,
segment, so the category is always segment 0 — a URL with an empty path
yields the empty string, not `unknown` — while the metro falls back to
the literal `unknown` when fewer than two segments exist, and an
unparseable URL yields `unknown`/`unknown` instead of raising. -/
theorem url_label_derivation (url : String) :
    (urlPath url.toList = none →
      extract_category_and_metro url = ("unknown", "unknown")) ∧
    (∀ path, urlPath url.toList = some path →
      (extract_category_and_metro url).1 =
        String.mk (dashToSpace ((splitSlash (stripSlash path)).getD 0 [])) ∧
      (1 < (splitSlash (stripSlash path)).length →
        (extract_category_and_metro url).2 =
          String.mk (dashToSpace ((splitSlash (stripSlash path)).getD 1 []))) ∧
      ((splitSlash (stripSlash path)).length ≤ 1 →
        (extract_category_and_metro url).2 = "unknown")) := by
  constructor
  · intro h
    simp only [extract_category_and_metro, h]
  · intro path h
    refine ⟨?_, ?_, ?_⟩
    · simp only [extract_category_and_metro, h]
      rw [if_pos (splitSlash_length_pos _)]
    · intro h2
      simp only [extract_category_and_metro, h]
      rw [if_pos h2]
    · intro h2
      simp only [extract_category_and_metro, h]
      rw [if_neg (by omega)]

theorem url_label_derivation_witness :
    (extract_category_and_metro "https://x.com/top-plumbers/austin").1 = "top plumbers" ∧
    (extract_category_and_metro "https://x.com/top-plumbers/austin").2 = "austin" ∧
    extract_category_and_metro "http://[::1" = ("unknown", "unknown") := by
  have h := (url_label_derivation "https://x.com/top-plumbers/austin").2
    ("/top-plumbers/austin".toList) (by decide)
  refine ⟨?_, ?_, (url_label_derivation "http://[::1").1 (by decide)⟩
  · rw [h.1]; decide
  · rw [h.2.1 (by decide)]; decide

/-! ### Scrape position claims -/

theorem scrapeLoop_position_ge {url category metro : String} {n : Nat}
    {blocks : List CompanyBlock} {r : ScrapedRecord}
    (h : r ∈ scrapeLoop url category metro n blocks) : n ≤ r.position := by
  induction blocks generalizing n with
  | nil => simp [scrapeLoop] at h
  | cons b rest ih =>
    simp only [scrapeLoop] at h
    rcases List.mem_append.mp h with h1 | h1
    · by_cases hk : extractName b ≠ "" ∧ extractName b ≠ "N/A"
      · rw [if_pos hk] at h1
        rcases List.mem_cons.mp h1 with rfl | h2
        · exact Nat.le_refl _
        · simp at h2
      · rw [if_neg hk] at h1
        simp at h1
    · exact Nat.le_of_succ_le (ih h1)

theorem scrapeLoop_pairwise {url category metro : String} {n : Nat}
    {blocks : List CompanyBlock} :
    List.Pairwise (· < ·)
      ((scrapeLoop url category metro n blocks).map ScrapedRecord.position) := by
  induction blocks generalizing n with
  | nil => simp [scrapeLoop]
  | cons b rest ih =>
    simp only [scrapeLoop]
    rw [List.map_append]
    by_cases hk : extractName b ≠ "" ∧ extractName b ≠ "N/A"
    · rw [if_pos hk]
      simp only [List.map_cons, List.map_nil, List.singleton_append]
      refine List.Pairwise.cons ?_ ih
      intro p hp
      rcases List.mem_map.mp hp with ⟨r, hr, rfl⟩
      exact scrapeLoop_position_ge hr
    · rw [if_neg hk]
      simpa using ih

theorem scrapeLoop_name_at_index {url category metro : String} {n : Nat}
    {blocks : List CompanyBlock} {r : ScrapedRecord}
    (h : r ∈ scrapeLoop url category metro n blocks) :
    r.position - n < blocks.length ∧
    extractName (blocks.getD (r.position - n) { nameContent := none }) = r.name ∧
    r.name ≠ "" ∧ r.name ≠ "N/A" := by
  induction blocks generalizing n with
  | nil => simp [scrapeLoop] at h
  | cons b rest ih =>
    simp only [scrapeLoop] at h
    rcases List.mem_append.mp h with h1 | h1
    · by_cases hk : extractName b ≠ "" ∧ extractName b ≠ "N/A"
      · rw [if_pos hk] at h1
        rcases List.mem_cons.mp h1 with rfl | h2
        · refine ⟨by simp, ?_, hk.1, hk.2⟩
          simp
        · simp at h2
      · rw [if_neg hk] at h1
        simp at h1
    · have hge := scrapeLoop_position_ge h1
      rcases ih h1 with ⟨hlt, hname, hne, hna⟩
      have hidx : r.position - n = (r.position - (n + 1)) + 1 := by omega
      refine ⟨by simp only [List.length_cons]; omega, ?_, hne, hna⟩
      rw [hidx, List.getD_cons_succ]
      exact hname

theorem scrapeLoop_complete {url category metro : String} {n : Nat}
    {blocks : List CompanyBlock} (i : Nat) (hi : i < blocks.length)
    (hne : extractName (blocks.getD i { nameContent := none }) ≠ "")
    (hna : extractName (blocks.getD i { nameContent := none }) ≠ "N/A") :
    ∃ r ∈ scrapeLoop url category metro n blocks, r.position = n + i := by
  induction blocks generalizing n i with
  | nil => simp at hi
  | cons b rest ih =>
    cases i with
    | zero =>
      rw [List.getD_cons_zero] at hne hna
      refine ⟨{ url := url, category := category, metro := metro,
                position := n, name := extractName b }, ?_, by simp⟩
      simp only [scrapeLoop]
      apply List.mem_append_left
      rw [if_pos ⟨hne, hna⟩]
      simp
    | succ j =>
      rw [List.getD_cons_succ] at hne hna
      have hj : j < rest.length := by simp only [List.length_cons] at hi; omega
      rcases ih (n := n + 1) j hj hne hna with ⟨r, hr, hpos⟩
      refine ⟨r, ?_, by omega⟩
      simp only [scrapeLoop]
      exact List.mem_append_right _ hr

/-- C10: scraped positions are strictly increasing and at least 1, each
record's position is the 1-based index of its block among all
company-row blocks of the page — blocks whose extracted name is empty or
`"N/A"` consume an index without producing a record — and a record's
position can therefore exceed its rank in the result list, as the
concrete two-block page shows. -/
theorem scrape_positions (url : String) (blocks : List CompanyBlock) :
    List.Pairwise (· < ·)
      ((scrape_company_data url blocks).map ScrapedRecord.position) ∧
    (∀ r ∈ scrape_company_data url blocks,
      1 ≤ r.position ∧ r.position - 1 < blocks.length ∧
      extractName (blocks.getD (r.position - 1) { nameContent := none }) = r.name ∧
      r.name ≠ "" ∧ r.name ≠ "N/A") ∧
    (∀ i : Nat, i < blocks.length →
      extractName (blocks.getD i { nameContent := none }) ≠ "" →
      extractName (blocks.getD i { nameContent := none }) ≠ "N/A" →
      ∃ r ∈ scrape_company_data url blocks, r.position = i + 1) ∧
    (scrape_company_data "https://x.com/c/m"
       [{ nameContent := none }, { nameContent := some "Acme" }]).map
      ScrapedRecord.position = [2] := by
  refine ⟨scrapeLoop_pairwise, ?_, ?_, by decide⟩
  · intro r hr
    have hge := scrapeLoop_position_ge hr
    have hat := scrapeLoop_name_at_index hr
    exact ⟨hge, hat.1, hat.2.1, hat.2.2.1, hat.2.2.2⟩
  · intro i hi hne hna
    rcases scrapeLoop_complete (n := 1) i hi hne hna with ⟨r, hr, hpos⟩
    exact ⟨r, hr, by omega⟩

theorem scrape_positions_witness :
    List.Pairwise (· < ·)
      ((scrape_company_data "https://x.com/c/m"
        [{ nameContent := none }, { nameContent := some "Acme" }]).map
        ScrapedRecord.position) ∧
    (∃ r ∈ scrape_company_data "https://x.com/c/m"
        [{ nameContent := none }, { nameContent := some "Acme" }],
      r.position = 1 + 1) := by
  have h := scrape_positions "https://x.com/c/m"
    [{ nameContent := none }, { nameContent := some "Acme" }]
  exact ⟨h.1, h.2.2.1 1 (by decide) (by decide) (by decide)⟩

end FsrSeasonal
